import Mathlib

/-!
Verification of the simpleterm text core: the word splitter and line reflow
from src/text.rs and src/terminal.rs, the flash-timing predicate, the
perceived-brightness comparator and the art-centering helper.

Strings are modelled as lists of characters (the Rust source assumes one
byte per display column, so byte counts and character counts agree for the
inputs the program handles). Machine `usize` subtraction is modelled with
an explicit wrap modulo 2^64 (release-build semantics) where it can
underflow. Durations and instants are modelled as natural numbers counting
milliseconds; `Instant::duration_since` saturates at zero, matching
truncated natural subtraction. Floating point arithmetic of the brightness
and centering helpers is modelled over the real and rational numbers
respectively.
-/

namespace Simpleterm

/-- Loop of split_word (src/text.rs lines 91-120): walks the characters,
accumulating into current_string, pushing a finished fragment whenever the
running count reaches the active budget (first_split while do_first, then
rest_split). -/
def split_word_go (first_split rest_split : ℕ) :
    List Char → Bool → ℕ → List Char → List (List Char)
  | [], _, _, current_string => [current_string]
  | c :: cs, do_first, count, current_string =>
    if do_first then
      if first_split ≤ count then
        current_string :: split_word_go first_split rest_split cs false 1 [c]
      else
        split_word_go first_split rest_split cs true (count + 1) (current_string ++ [c])
    else if rest_split ≤ count then
      current_string :: split_word_go first_split rest_split cs false 1 [c]
    else
      split_word_go first_split rest_split cs false (count + 1) (current_string ++ [c])

/-- Embedding of split_word (src/text.rs lines 91-120): the loop starts with
do_first = true, count = 0 and an empty accumulator, and the final
accumulator is always pushed. -/
def split_word (x : List Char) (first_split rest_split : ℕ) : List (List Char) :=
  split_word_go first_split rest_split x true 0 []

/-- Loop of Rust str::split_whitespace as used by process_message
(src/terminal.rs line 445): splits a string at whitespace runs, yielding the
maximal whitespace-free nonempty chunks in order. -/
def split_whitespace_go : List Char → List Char → List (List Char)
  | [], cur => if cur = [] then [] else [cur]
  | c :: cs, cur =>
    if c.isWhitespace then
      if cur = [] then split_whitespace_go cs []
      else cur :: split_whitespace_go cs []
    else split_whitespace_go cs (cur ++ [c])

/-- Embedding of str::split_whitespace: word tokenization of a paragraph. -/
def split_whitespace (s : List Char) : List (List Char) :=
  split_whitespace_go s []

/-- Characters of a string with all whitespace removed; equals the
concatenation of the string's whitespace-separated words. -/
def nonWs (s : List Char) : List Char := s.filter (fun c => !c.isWhitespace)

/-- Whitespace-separated words of a sequence of display lines, in emission
order: the observation against which word conservation of the reflow is
stated. -/
def line_words (lines : List (List Char)) : List (List Char) :=
  (lines.map split_whitespace).flatten

/-- Wrapping usize subtraction: models the Rust expression a - b on usize in
release builds, which wraps modulo 2^64 when b exceeds a (for operands below
2^64). process_message computes max_chars - (message_len + 1) with it. -/
def wsub (a b : ℕ) : ℕ := (a + 2 ^ 64 - b) % 2 ^ 64

/-- Body of the word loop of process_message (src/terminal.rs lines 445-468)
acting on the state (new_message_vec, new_message). An over-long word is
split; with a non-empty accumulator the first fragment joins the
accumulator line (budget max_chars - (message_len + 1)), every produced line
is pushed and the final fragment is popped back as the new accumulator.
Otherwise the word is appended (with a separating space if the accumulator
is non-empty) or starts a fresh line when it would overflow. -/
def reflow_word (max_chars : ℕ) (st : List (List Char) × List Char)
    (word : List Char) : List (List Char) × List Char :=
  let out := st.1
  let new_message := st.2
  if max_chars < word.length then
    if 0 < new_message.length then
      let word_vec := split_word word (wsub max_chars (new_message.length + 1)) max_chars
      let all := out ++ [new_message ++ [' '] ++ word_vec.headI] ++ word_vec.tail
      (all.dropLast, all.getLast?.getD [])
    else
      (out ++ split_word word max_chars max_chars, new_message)
  else if max_chars < new_message.length + word.length then
    (out ++ [new_message], word)
  else if 0 < new_message.length then
    (out, new_message ++ [' '] ++ word)
  else
    (out, word)

/-- Paragraph step of process_message (src/terminal.rs lines 442-471): the
words of the paragraph are folded through reflow_word starting from an empty
accumulator, and a final non-empty accumulator is pushed as a line. -/
def reflow_paragraph (max_chars : ℕ) (out : List (List Char))
    (p : List Char) : List (List Char) :=
  let st := (split_whitespace p).foldl (reflow_word max_chars) (out, [])
  if st.2 = [] then st.1 else st.1 ++ [st.2]

/-- Embedding of process_message (src/terminal.rs lines 437-473): reflows
every paragraph in order into one list of display lines, with max_chars
taken as a parameter (the source reads it from get_max_characters). -/
def process_message (message : List (List Char)) (max_chars : ℕ) :
    List (List Char) :=
  message.foldl (reflow_paragraph max_chars) []

/-- Embedding of FLASH_TIME (src/lib.rs line 38): 500 milliseconds. -/
def FLASH_TIME : ℕ := 500

/-- Embedding of check_flash (src/text.rs lines 130-138). The mutable
last-toggle timestamp is threaded explicitly: the result is the returned
boolean paired with the new last-toggle value. Times are in milliseconds;
now - last_toggle saturates at zero exactly like Instant::duration_since. -/
def check_flash (now last_toggle : ℕ) : Bool × ℕ :=
  let time_since := now - last_toggle
  if FLASH_TIME * 2 < time_since then (true, now)
  else (decide (FLASH_TIME < time_since), last_toggle)

/-- Embedding of piston's Color: four real channels red, green, blue, alpha
(f32 arithmetic modelled over the reals). -/
structure Color where
  r : ℝ
  g : ℝ
  b : ℝ
  a : ℝ

/-- Embedding of TermColor::brightness (src/text.rs lines 60-67): weighted
quadratic combination of the channels, square-rooted, scaled by alpha. -/
noncomputable def brightness (c : Color) : ℝ :=
  Real.sqrt (c.r * c.r * 0.241 + c.g * c.g * 0.691 + c.b * c.b * 0.068) * c.a

/-- Embedding of TermColor::brighter_than (src/text.rs lines 56-58): strict
comparison of perceived brightness. -/
def brighter_than (c other : Color) : Prop := brightness other < brightness c

/-- Embedding of the EMERALD constant (src/text.rs line 16). -/
noncomputable def EMERALD : Color := ⟨0, 0.79, 0.34, 1⟩

/-- Embedding of place_art (src/text.rs lines 146-154) over exact rational
arithmetic. The source indexes art[0], which panics on an empty block; the
panic is modelled as the result none. Block width is measured from the first
row's character count only. -/
def place_art (win_width win_height : ℚ) (art : List (List Char))
    (font_size : ℕ) : Option (ℚ × ℚ) :=
  match art with
  | [] => none
  | a0 :: _ =>
    let mid_x : ℚ := win_width / 2
    let mid_y : ℚ := win_height / 2
    let art_mid_x : ℚ := ((a0.length : ℚ) / 2) * ((font_size : ℚ) * 0.67)
    let art_mid_y : ℚ := ((art.length : ℚ) / 2) * ((font_size : ℚ) * 0.23)
    some (mid_x - art_mid_x, mid_y - art_mid_y)

theorem split_word_go_flatten (f r : ℕ) (cs : List Char) :
    ∀ (df : Bool) (cnt : ℕ) (cur : List Char),
      (split_word_go f r cs df cnt cur).flatten = cur ++ cs := by
  induction cs with
  | nil => intro df cnt cur; simp [split_word_go]
  | cons c cs ih =>
    intro df cnt cur
    rw [split_word_go]
    split
    · split
      · simp [ih]
      · simp [ih]
    · split
      · simp [ih]
      · simp [ih]

theorem split_word_flatten (x : List Char) (f r : ℕ) :
    (split_word x f r).flatten = x := by
  simpa [split_word] using split_word_go_flatten f r x true 0 []

theorem split_word_go_ne_nil (f r : ℕ) (cs : List Char) (df : Bool) (cnt : ℕ)
    (cur : List Char) : split_word_go f r cs df cnt cur ≠ [] := by
  cases cs with
  | nil => simp [split_word_go]
  | cons c cs =>
    rw [split_word_go]
    split
    · split
      · simp
      · exact split_word_go_ne_nil f r cs true (cnt + 1) (cur ++ [c])
    · split
      · simp
      · exact split_word_go_ne_nil f r cs false (cnt + 1) (cur ++ [c])

theorem split_word_ne_nil (x : List Char) (f r : ℕ) : split_word x f r ≠ [] :=
  split_word_go_ne_nil f r x true 0 []

/-- Fragment lengths in the rest phase of the splitter: starting from an
accumulator of length cnt with 1 ≤ cnt ≤ r, every fragment except the last
has length exactly r and the last has length between 1 and r. -/
theorem split_word_go_rest_lengths (f r : ℕ) (hr : 1 ≤ r) (cs : List Char) :
    ∀ (cnt : ℕ) (cur : List Char), cur.length = cnt → 1 ≤ cnt → cnt ≤ r →
      ∃ mid lastfrag, split_word_go f r cs false cnt cur = mid ++ [lastfrag] ∧
        (∀ frag ∈ mid, frag.length = r) ∧
        1 ≤ lastfrag.length ∧ lastfrag.length ≤ r := by
  induction cs with
  | nil =>
    intro cnt cur hlen h1 h2
    exact ⟨[], cur, by simp [split_word_go], by simp, by omega, by omega⟩
  | cons c cs ih =>
    intro cnt cur hlen h1 h2
    rw [split_word_go]
    rw [if_neg (by simp)]
    by_cases hcr : r ≤ cnt
    · rw [if_pos hcr]
      obtain ⟨mid, lastfrag, heq, hmid, hl1, hl2⟩ := ih 1 [c] rfl le_rfl hr
      refine ⟨cur :: mid, lastfrag, by simp [heq], ?_, hl1, hl2⟩
      intro frag hf
      rcases List.mem_cons.mp hf with h | h
      · subst h; omega
      · exact hmid _ h
    · rw [if_neg hcr]
      exact ih (cnt + 1) (cur ++ [c]) (by simp [hlen]) (by omega) (by omega)

/-- Fragment behaviour of the first phase when the whole remaining input fits
inside the first budget: a single fragment is produced. -/
theorem split_word_go_first_small (f r : ℕ) (cs : List Char) :
    ∀ (cnt : ℕ) (cur : List Char), cs.length + cnt ≤ f →
      split_word_go f r cs true cnt cur = [cur ++ cs] := by
  induction cs with
  | nil => intro cnt cur h; simp [split_word_go]
  | cons c cs ih =>
    intro cnt cur h
    rw [split_word_go, if_pos rfl]
    have hlen : (c :: cs).length = cs.length + 1 := by simp
    rw [if_neg (by omega)]
    rw [ih (cnt + 1) (cur ++ [c]) (by simp at h ⊢; omega)]
    simp

/-- Fragment lengths of the first phase when the input overflows the first
budget: the first fragment completes the accumulator to exactly f characters
and the rest-phase length facts apply to the remaining fragments. -/
theorem split_word_go_first_big (f r : ℕ) (hr : 1 ≤ r) (cs : List Char) :
    ∀ (cnt : ℕ) (cur : List Char), cur.length = cnt → cnt ≤ f →
      f < cnt + cs.length →
      ∃ mid lastfrag, split_word_go f r cs true cnt cur =
          (cur ++ cs.take (f - cnt)) :: mid ++ [lastfrag] ∧
        (∀ frag ∈ mid, frag.length = r) ∧
        1 ≤ lastfrag.length ∧ lastfrag.length ≤ r := by
  induction cs with
  | nil => intro cnt cur h1 h2 h3; simp at h3; omega
  | cons c cs ih =>
    intro cnt cur hlen h2 h3
    rw [split_word_go, if_pos rfl]
    by_cases hf : f ≤ cnt
    · rw [if_pos hf]
      have hcnt : cnt = f := by omega
      obtain ⟨mid, lastfrag, heq, hmid, hl1, hl2⟩ :=
        split_word_go_rest_lengths f r hr cs 1 [c] rfl le_rfl hr
      refine ⟨mid, lastfrag, ?_, hmid, hl1, hl2⟩
      rw [heq, hcnt]
      simp
    · rw [if_neg hf]
      have h3' : f < (cnt + 1) + cs.length := by simp at h3; omega
      obtain ⟨mid, lastfrag, heq, hmid, hl1, hl2⟩ :=
        ih (cnt + 1) (cur ++ [c]) (by simp [hlen]) (by omega) h3'
      refine ⟨mid, lastfrag, ?_, hmid, hl1, hl2⟩
      rw [heq]
      congr 2
      have hstep : f - cnt = (f - (cnt + 1)) + 1 := by omega
      rw [hstep, List.take_succ_cons]
      simp

/-- Claim C2: for every word and all budgets f ≥ 1 and r ≥ 1, concatenating
the fragments returned by split_word, in order, reproduces the word exactly:
no character is dropped, duplicated, or reordered. -/
theorem split_word_roundtrip (w : List Char) (f r : ℕ)
    (hf : 1 ≤ f) (hr : 1 ≤ r) : (split_word w f r).flatten = w :=
  split_word_flatten w f r

/-- Witness for C2 at the word "abc" with budgets 1 and 2. -/
theorem split_word_roundtrip_witness :
    (1:ℕ) ≤ 1 ∧ (1:ℕ) ≤ 2 ∧ (split_word ['a','b','c'] 1 2).flatten = ['a','b','c'] :=
  ⟨by decide, by decide, split_word_roundtrip ['a','b','c'] 1 2 (by decide) (by decide)⟩

/-- Counterexample to claim C3 as stated: for the word "ab" with budgets
f = 5 and r = 1 the splitter returns the single fragment "ab", whose length
2 is not within the claimed final-fragment range [1, r] = [1, 1]. -/
theorem split_word_lengths_cex :
    split_word ['a','b'] 5 1 = [['a','b']] ∧
      ¬ (List.length ['a','b'] ≤ 1) := by
  constructor
  · rfl
  · decide

/-- Claim C3 (amended): for every nonempty word w and budgets f, r ≥ 1: when
w is longer than f, the first fragment has length exactly f, every later
non-final fragment has length exactly r, and the last fragment has length in
[1, r]; when w has at most f characters, the output is the single fragment w
itself (whose length may exceed r). -/
theorem split_word_lengths (w : List Char) (f r : ℕ)
    (hf : 1 ≤ f) (hr : 1 ≤ r) (hw : w ≠ []) :
    (w.length ≤ f → split_word w f r = [w]) ∧
    (f < w.length → ∃ mid lastfrag, split_word w f r =
        w.take f :: mid ++ [lastfrag] ∧
      (w.take f).length = f ∧
      (∀ frag ∈ mid, frag.length = r) ∧
      1 ≤ lastfrag.length ∧ lastfrag.length ≤ r) := by
  constructor
  · intro h
    have := split_word_go_first_small f r w 0 [] (by omega)
    simpa [split_word] using this
  · intro h
    obtain ⟨mid, lastfrag, heq, hmid, hl1, hl2⟩ :=
      split_word_go_first_big f r hr w 0 [] rfl (by omega) (by omega)
    refine ⟨mid, lastfrag, ?_, ?_, hmid, hl1, hl2⟩
    · simpa [split_word] using heq
    · rw [List.length_take]; omega

/-- Witness for the amended C3 at the word "abcdef" with budgets 2 and 3. -/
theorem split_word_lengths_witness :
    (List.length ['a','b','c','d','e','f'] ≤ 2 →
      split_word ['a','b','c','d','e','f'] 2 3 = [['a','b','c','d','e','f']]) ∧
    (2 < List.length ['a','b','c','d','e','f'] →
      ∃ mid lastfrag, split_word ['a','b','c','d','e','f'] 2 3 =
          List.take 2 ['a','b','c','d','e','f'] :: mid ++ [lastfrag] ∧
        (List.take 2 ['a','b','c','d','e','f']).length = 2 ∧
        (∀ frag ∈ mid, frag.length = 3) ∧
        1 ≤ lastfrag.length ∧ lastfrag.length ≤ 3) :=
  split_word_lengths ['a','b','c','d','e','f'] 2 3 (by decide) (by decide) (by decide)

/-- Counterexample to claim C6 as stated: split_word called with a first
budget of 0 does not fail with any error condition; it returns the normal
fragment list [[], "a"], whose concatenation is still the input word. -/
theorem split_word_zero_budget_cex :
    split_word ['a'] 0 2 = [[], ['a']] ∧
      (split_word ['a'] 0 2).flatten = ['a'] := by
  constructor <;> rfl

/-- Claim C6 (amended): split_word called with a budget of 0 does not fail
and does not loop: it terminates (the loop is a single pass over the word)
and returns a normal, nonempty fragment list, possibly containing empty
fragments, whose concatenation is exactly the input word. -/
theorem split_word_zero_budget (w : List Char) (f r : ℕ)
    (h : f = 0 ∨ r = 0) :
    (split_word w f r).flatten = w ∧ split_word w f r ≠ [] :=
  ⟨split_word_flatten w f r, split_word_ne_nil w f r⟩

/-- Witness for the amended C6 at the word "ab" with budgets 0 and 1. -/
theorem split_word_zero_budget_witness :
    ((0:ℕ) = 0 ∨ (1:ℕ) = 0) ∧
      ((split_word ['a','b'] 0 1).flatten = ['a','b'] ∧
        split_word ['a','b'] 0 1 ≠ []) :=
  ⟨Or.inl rfl, split_word_zero_budget ['a','b'] 0 1 (Or.inl rfl)⟩

/-- Claim C10: split_word is a single structurally recursive pass over the
word's characters, hence total for every input including zero budgets; the
concatenation of the fragments always equals the input word; the empty word
yields a single empty fragment, and a zero budget yields empty fragments
(split_word "ab" 0 1 = ["", "a", "b"]). -/
theorem split_word_total (w : List Char) (f r : ℕ) :
    (split_word w f r).flatten = w ∧
    split_word ([] : List Char) f r = [[]] ∧
    split_word ['a','b'] 0 1 = [[], ['a'], ['b']] :=
  ⟨split_word_flatten w f r, rfl, rfl⟩

theorem nonWs_append (a b : List Char) : nonWs (a ++ b) = nonWs a ++ nonWs b := by
  simp [nonWs]

theorem nonWs_space : nonWs [' '] = [] := rfl

theorem nonWs_nonWs (s : List Char) : nonWs (nonWs s) = nonWs s := by
  simp [nonWs, List.filter_filter]

theorem split_whitespace_go_flatten (cs : List Char) :
    ∀ cur, (split_whitespace_go cs cur).flatten = cur ++ nonWs cs := by
  induction cs with
  | nil =>
    intro cur
    by_cases h : cur = [] <;> simp [split_whitespace_go, nonWs, h]
  | cons c cs ih =>
    intro cur
    rw [split_whitespace_go]
    by_cases hw : c.isWhitespace = true
    · rw [if_pos hw]
      by_cases h : cur = []
      · rw [if_pos h]
        simp [ih, nonWs, hw, h]
      · rw [if_neg h]
        simp [ih, nonWs, hw]
    · rw [if_neg hw]
      simp [ih, nonWs, hw]

theorem split_whitespace_flatten (s : List Char) :
    (split_whitespace s).flatten = nonWs s := by
  simpa [split_whitespace] using split_whitespace_go_flatten s []

theorem headI_append_tail_flatten (l : List (List Char)) :
    l.headI ++ l.tail.flatten = l.flatten := by
  cases l with
  | nil => rfl
  | cons a t => simp

theorem dropLast_append_getLastD (l : List (List Char)) (h : l ≠ []) :
    l.dropLast ++ [l.getLast?.getD []] = l := by
  induction l with
  | nil => exact absurd rfl h
  | cons a t ih =>
    cases t with
    | nil => simp
    | cons b t2 =>
      have hrec := ih (by simp)
      simp only [List.dropLast_cons₂, List.getLast?_cons_cons, List.cons_append]
      rw [hrec]

theorem flatten_dropLast_getLastD (l : List (List Char)) (h : l ≠ []) :
    l.dropLast.flatten ++ l.getLast?.getD [] = l.flatten := by
  conv_rhs => rw [← dropLast_append_getLastD l h]
  simp

/-- Character conservation of a single word step of the reflow: the
non-whitespace characters of the emitted lines plus the accumulator grow by
exactly the characters of the consumed word. -/
theorem reflow_word_chars (n : ℕ) (st : List (List Char) × List Char)
    (w : List Char) :
    nonWs ((reflow_word n st w).1.flatten ++ (reflow_word n st w).2)
      = nonWs (st.1.flatten ++ st.2) ++ nonWs w := by
  obtain ⟨out, msg⟩ := st
  simp only [reflow_word]
  split_ifs with h1 h2 h3 h4
  · rw [flatten_dropLast_getLastD _ (by simp)]
    rw [List.flatten_append, List.flatten_append]
    simp only [List.flatten_cons, List.flatten_nil, List.append_nil]
    rw [List.append_assoc, List.append_assoc, headI_append_tail_flatten,
      split_word_flatten]
    simp [nonWs_append, nonWs_space, nonWs]
  · have hmsg : msg = [] := by
      rw [← List.length_eq_zero]; omega
    subst hmsg
    simp [nonWs_append, split_word_flatten]
  · simp [nonWs_append]
  · simp [nonWs_append, nonWs_space, nonWs]
  · have hmsg : msg = [] := by
      rw [← List.length_eq_zero]; omega
    subst hmsg
    simp [nonWs_append]

/-- Character conservation of the word fold of one paragraph. -/
theorem foldl_reflow_word_chars (n : ℕ) (ws : List (List Char)) :
    ∀ st, nonWs (((ws.foldl (reflow_word n) st).1.flatten ++
        (ws.foldl (reflow_word n) st).2))
      = nonWs (st.1.flatten ++ st.2) ++ nonWs ws.flatten := by
  induction ws with
  | nil => intro st; simp [nonWs]
  | cons w ws ih =>
    intro st
    simp only [List.foldl_cons, List.flatten_cons]
    rw [ih, reflow_word_chars]
    simp [nonWs_append, List.append_assoc]

/-- Character conservation of one paragraph of the reflow. -/
theorem reflow_paragraph_chars (n : ℕ) (out : List (List Char))
    (p : List Char) :
    nonWs (reflow_paragraph n out p).flatten
      = nonWs out.flatten ++ nonWs p := by
  rw [reflow_paragraph]
  have hkey := foldl_reflow_word_chars n (split_whitespace p) (out, [])
  rw [split_whitespace_flatten, nonWs_nonWs] at hkey
  generalize hst : (split_whitespace p).foldl (reflow_word n) (out, []) = st at hkey ⊢
  split
  · rename_i hnil
    rw [hnil] at hkey
    simpa [nonWs_append] using hkey
  · rw [List.flatten_append]
    simpa [nonWs_append] using hkey

/-- Character conservation of the paragraph fold of process_message. -/
theorem foldl_reflow_paragraph_chars (n : ℕ) (msgs : List (List Char)) :
    ∀ out, nonWs ((msgs.foldl (reflow_paragraph n) out).flatten)
      = nonWs out.flatten ++ nonWs msgs.flatten := by
  induction msgs with
  | nil => intro out; simp [nonWs]
  | cons p msgs ih =>
    intro out
    simp only [List.foldl_cons, List.flatten_cons]
    rw [ih, reflow_paragraph_chars, nonWs_append, List.append_assoc]

/-- Character conservation of process_message: the non-whitespace characters
of the emitted lines are exactly those of the input paragraphs, in order. -/
theorem process_message_chars (msgs : List (List Char)) (n : ℕ) :
    nonWs (process_message msgs n).flatten = nonWs msgs.flatten := by
  rw [process_message, foldl_reflow_paragraph_chars]
  simp [nonWs]

/-- Claim C1 (code bug): reflowing the single paragraph "abc de" with
max_columns = 5 emits the line "abc de" of 6 characters, exceeding the
budget, because the append check message_len + word_len > max_chars omits
the one separating space. Neither word is over-long, so the claimed
exception for split fragments does not apply. -/
theorem process_message_space_overflow :
    process_message [['a','b','c',' ','d','e']] 5
        = [['a','b','c',' ','d','e']] ∧
      5 < (List.length ['a','b','c',' ','d','e']) := by
  constructor
  · rfl
  · decide

theorem split_whitespace_go_append_ws (b : List Char) (a : List Char) :
    ∀ cur, split_whitespace_go (a ++ ' ' :: b) cur
      = split_whitespace_go a cur ++ split_whitespace_go b [] := by
  induction a with
  | nil =>
    intro cur
    simp only [List.nil_append]
    conv_lhs => rw [split_whitespace_go]
    rw [if_pos (by decide)]
    by_cases h : cur = []
    · rw [if_pos h]
      conv_rhs => rw [split_whitespace_go]
      rw [if_pos h, List.nil_append]
    · rw [if_neg h]
      conv_rhs => rw [split_whitespace_go]
      rw [if_neg h]
      simp
  | cons c a ih =>
    intro cur
    rw [List.cons_append, split_whitespace_go]
    conv_rhs => rw [split_whitespace_go]
    by_cases hw : c.isWhitespace = true
    · rw [if_pos hw, if_pos hw]
      by_cases h : cur = []
      · rw [if_pos h, if_pos h, ih]
      · rw [if_neg h, if_neg h, List.cons_append, ih]
    · rw [if_neg hw, if_neg hw, ih]

theorem split_whitespace_append_space (a b : List Char) :
    split_whitespace (a ++ [' '] ++ b)
      = split_whitespace a ++ split_whitespace b := by
  have h : a ++ [' '] ++ b = a ++ ' ' :: b := by simp
  rw [split_whitespace, h, split_whitespace_go_append_ws b a []]
  rfl

theorem split_whitespace_go_single (cs : List Char) :
    ∀ cur, (∀ c ∈ cs, c.isWhitespace = false) → cur ++ cs ≠ [] →
      split_whitespace_go cs cur = [cur ++ cs] := by
  induction cs with
  | nil =>
    intro cur hc hne
    rw [split_whitespace_go, if_neg (by simpa using hne)]
    simp
  | cons c cs ih =>
    intro cur hc hne
    rw [split_whitespace_go,
      if_neg (by simp [hc c (List.mem_cons_self c cs)])]
    rw [ih (cur ++ [c]) (fun x hx => hc x (List.mem_cons_of_mem c hx)) (by simp)]
    simp

theorem split_whitespace_single (w : List Char) (hw : w ≠ [])
    (hc : ∀ c ∈ w, c.isWhitespace = false) : split_whitespace w = [w] := by
  rw [split_whitespace, split_whitespace_go_single w [] hc (by simpa using hw)]
  rfl

theorem split_whitespace_go_members (cs : List Char) :
    ∀ cur, (∀ c ∈ cur, c.isWhitespace = false) →
      ∀ w ∈ split_whitespace_go cs cur,
        w ≠ [] ∧ ∀ c ∈ w, c.isWhitespace = false := by
  induction cs with
  | nil =>
    intro cur hcur w hwm
    rw [split_whitespace_go] at hwm
    by_cases h : cur = []
    · rw [if_pos h] at hwm; exact absurd hwm (List.not_mem_nil w)
    · rw [if_neg h] at hwm
      rcases List.mem_singleton.mp hwm with rfl
      exact ⟨h, hcur⟩
  | cons c cs ih =>
    intro cur hcur w hwm
    rw [split_whitespace_go] at hwm
    by_cases hw : c.isWhitespace = true
    · rw [if_pos hw] at hwm
      by_cases h : cur = []
      · rw [if_pos h] at hwm
        exact ih [] (by simp) w hwm
      · rw [if_neg h] at hwm
        rcases List.mem_cons.mp hwm with rfl | hwm
        · exact ⟨h, hcur⟩
        · exact ih [] (by simp) w hwm
    · rw [if_neg hw] at hwm
      refine ih (cur ++ [c]) ?_ w hwm
      intro x hx
      rcases List.mem_append.mp hx with hx | hx
      · exact hcur x hx
      · rcases List.mem_singleton.mp hx with rfl
        simpa using hw

theorem split_whitespace_members (s : List Char) :
    ∀ w ∈ split_whitespace s, w ≠ [] ∧ ∀ c ∈ w, c.isWhitespace = false := by
  intro w hw
  exact split_whitespace_go_members s [] (by simp) w hw

theorem cons_headI_tail (l : List (List Char)) (h : l ≠ []) :
    l.headI :: l.tail = l := by
  cases l with
  | nil => exact absurd rfl h
  | cons a t => rfl

theorem flatten_filter_ne_nil (l : List (List Char)) :
    (l.filter (fun x => decide (x ≠ []))).flatten = l.flatten := by
  induction l with
  | nil => rfl
  | cons a t ih => by_cases h : a = [] <;> simp [h] <;> simpa using ih

theorem line_words_append (a b : List (List Char)) :
    line_words (a ++ b) = line_words a ++ line_words b := by
  simp [line_words]

theorem line_words_singleton (s : List Char) :
    line_words [s] = split_whitespace s := by
  simp [line_words]

theorem split_whitespace_nil : split_whitespace ([] : List Char) = [] := rfl

theorem line_words_fragments (frags : List (List Char))
    (hc : ∀ frag ∈ frags, ∀ c ∈ frag, c.isWhitespace = false) :
    line_words frags = frags.filter (fun x => decide (x ≠ [])) := by
  induction frags with
  | nil => rfl
  | cons a t ih =>
    rw [line_words, List.map_cons, List.flatten_cons, ← line_words,
      ih (fun frag hf c hcf => hc frag (List.mem_cons_of_mem a hf) c hcf)]
    by_cases h : a = []
    · subst h
      simp [split_whitespace, split_whitespace_go]
    · rw [split_whitespace_single a h (fun c hcc => hc a (List.mem_cons_self a t) c hcc)]
      simp [h]

/-- Word conservation of a single word step of the reflow: consuming the
word w appends to the emitted word sequence (including the words of the
pending accumulator) a nonempty group of fragments whose concatenation is
exactly w; the group has a single element unless w is over-long. -/
theorem reflow_word_words (n : ℕ) (st : List (List Char) × List Char)
    (w : List Char) (hw : w ≠ []) (hc : ∀ c ∈ w, c.isWhitespace = false) :
    ∃ gw : List (List Char), gw ≠ [] ∧ gw.flatten = w ∧
      (gw.length = 1 ∨ n < w.length) ∧
      line_words ((reflow_word n st w).1 ++ [(reflow_word n st w).2])
        = line_words (st.1 ++ [st.2]) ++ gw := by
  obtain ⟨out, msg⟩ := st
  simp only [reflow_word]
  split_ifs with h1 h2 h3 h4 <;> dsimp only
  · -- over-long word joining a non-empty accumulator
    set wv := split_word w (wsub n (msg.length + 1)) n with hwv
    have hvne : wv ≠ [] := split_word_ne_nil w _ n
    have hvflat : wv.flatten = w := split_word_flatten w _ n
    have hfragc : ∀ frag ∈ wv, ∀ c ∈ frag, c.isWhitespace = false := by
      intro frag hf c hcf
      exact hc c (by rw [← hvflat]; exact List.mem_flatten.mpr ⟨frag, hf, hcf⟩)
    refine ⟨wv.filter (fun x => decide (x ≠ [])), ?_, ?_, Or.inr h1, ?_⟩
    · intro hnil
      have hfe : wv.flatten = [] := by
        rw [← flatten_filter_ne_nil, hnil]; rfl
      exact hw (by rw [← hvflat, hfe])
    · rw [flatten_filter_ne_nil, hvflat]
    · rw [dropLast_append_getLastD _ (by simp)]
      have htail : line_words wv.tail
          = wv.tail.filter (fun x => decide (x ≠ [])) :=
        line_words_fragments wv.tail
          (fun frag hf c hcf => hfragc frag (List.mem_of_mem_tail hf) c hcf)
      have hhead : split_whitespace wv.headI
          = [wv.headI].filter (fun x => decide (x ≠ [])) := by
        by_cases hh : wv.headI = []
        · rw [hh, split_whitespace_nil]
          simp
        · rw [split_whitespace_single wv.headI hh
            (fun c hcc => hfragc wv.headI (by
              rw [← cons_headI_tail wv hvne]
              exact List.mem_cons_self _ _) c hcc)]
          simp [hh]
      rw [line_words_append, line_words_append, line_words_append,
        line_words_singleton, line_words_singleton,
        split_whitespace_append_space, hhead, htail,
        List.append_assoc, List.append_assoc, ← List.filter_append,
        List.singleton_append, cons_headI_tail wv hvne]
      simp [List.append_assoc]
  · -- over-long word with empty accumulator
    have hmsg : msg = [] := by rw [← List.length_eq_zero]; omega
    subst hmsg
    set wv := split_word w n n with hwv
    have hvflat : wv.flatten = w := split_word_flatten w n n
    have hfragc : ∀ frag ∈ wv, ∀ c ∈ frag, c.isWhitespace = false := by
      intro frag hf c hcf
      exact hc c (by rw [← hvflat]; exact List.mem_flatten.mpr ⟨frag, hf, hcf⟩)
    refine ⟨wv.filter (fun x => decide (x ≠ [])), ?_, ?_, Or.inr h1, ?_⟩
    · intro hnil
      have hfe : wv.flatten = [] := by
        rw [← flatten_filter_ne_nil, hnil]; rfl
      exact hw (by rw [← hvflat, hfe])
    · rw [flatten_filter_ne_nil, hvflat]
    · rw [line_words_append, line_words_append, line_words_append,
        line_words_fragments wv hfragc, line_words_singleton,
        split_whitespace_nil]
      simp
  · -- word starts a fresh line
    refine ⟨[w], by simp, by simp, Or.inl rfl, ?_⟩
    rw [line_words_append, line_words_append, line_words_singleton,
      line_words_singleton, split_whitespace_single w hw hc]
  · -- word appended to the non-empty accumulator with a space
    refine ⟨[w], by simp, by simp, Or.inl rfl, ?_⟩
    rw [line_words_append, line_words_append, line_words_singleton,
      line_words_singleton, split_whitespace_append_space,
      split_whitespace_single w hw hc]
    simp
  · -- word becomes the accumulator
    have hmsg : msg = [] := by rw [← List.length_eq_zero]; omega
    subst hmsg
    refine ⟨[w], by simp, by simp, Or.inl rfl, ?_⟩
    rw [line_words_append, line_words_append, line_words_singleton,
      line_words_singleton, split_whitespace_single w hw hc,
      split_whitespace_nil]
    simp

/-- Word conservation of the word fold of one paragraph: the words of the
emitted lines and accumulator extend by a group of fragments per input word,
each group concatenating back to its word. -/
theorem foldl_reflow_word_words (n : ℕ) (ws : List (List Char)) :
    ∀ st, (∀ w ∈ ws, w ≠ [] ∧ ∀ c ∈ w, c.isWhitespace = false) →
      ∃ groups : List (List (List Char)),
        (∀ g ∈ groups, g ≠ [] ∧ (g.length = 1 ∨ n < g.flatten.length)) ∧
        groups.map List.flatten = ws ∧
        line_words ((ws.foldl (reflow_word n) st).1
            ++ [(ws.foldl (reflow_word n) st).2])
          = line_words (st.1 ++ [st.2]) ++ groups.flatten := by
  induction ws with
  | nil =>
    intro st hws
    exact ⟨[], by simp, by simp, by simp⟩
  | cons w ws ih =>
    intro st hws
    obtain ⟨hwne, hwc⟩ := hws w (List.mem_cons_self w ws)
    obtain ⟨gw, hgne, hgflat, hglen, hgeq⟩ := reflow_word_words n st w hwne hwc
    obtain ⟨groups, hgs, hmap, heq⟩ :=
      ih (reflow_word n st w) (fun x hx => hws x (List.mem_cons_of_mem w hx))
    refine ⟨gw :: groups, ?_, ?_, ?_⟩
    · intro g hg
      rcases List.mem_cons.mp hg with rfl | hg
      · exact ⟨hgne, by rw [hgflat]; exact hglen⟩
      · exact hgs g hg
    · simp [hmap, hgflat]
    · rw [List.foldl_cons, heq, hgeq]
      simp [List.append_assoc]

/-- Word conservation of one paragraph of the reflow. -/
theorem reflow_paragraph_words (n : ℕ) (out : List (List Char))
    (p : List Char) :
    ∃ groups : List (List (List Char)),
      (∀ g ∈ groups, g ≠ [] ∧ (g.length = 1 ∨ n < g.flatten.length)) ∧
      groups.map List.flatten = split_whitespace p ∧
      line_words (reflow_paragraph n out p)
        = line_words out ++ groups.flatten := by
  obtain ⟨groups, hgs, hmap, heq⟩ :=
    foldl_reflow_word_words n (split_whitespace p) (out, [])
      (split_whitespace_members p)
  dsimp only at heq
  refine ⟨groups, hgs, hmap, ?_⟩
  rw [reflow_paragraph]
  have hbase : line_words (out ++ [([] : List Char)]) = line_words out := by
    rw [line_words_append, line_words_singleton, split_whitespace_nil]
    simp
  rw [hbase] at heq
  generalize hst : (split_whitespace p).foldl (reflow_word n) (out, []) = st at heq ⊢
  split
  · rename_i hnil
    have hfin : line_words (st.1 ++ [st.2]) = line_words st.1 := by
      rw [hnil, line_words_append, line_words_singleton, split_whitespace_nil]
      simp
    rw [← hfin, heq]
  · rw [heq]

/-- Word conservation of the paragraph fold of process_message. -/
theorem foldl_reflow_paragraph_words (n : ℕ) (msgs : List (List Char)) :
    ∀ out, ∃ groups : List (List (List Char)),
      (∀ g ∈ groups, g ≠ [] ∧ (g.length = 1 ∨ n < g.flatten.length)) ∧
      groups.map List.flatten = (msgs.map split_whitespace).flatten ∧
      line_words (msgs.foldl (reflow_paragraph n) out)
        = line_words out ++ groups.flatten := by
  induction msgs with
  | nil => intro out; exact ⟨[], by simp, by simp, by simp⟩
  | cons p msgs ih =>
    intro out
    obtain ⟨gp, hgp, hmapp, heqp⟩ := reflow_paragraph_words n out p
    obtain ⟨gr, hgr, hmapr, heqr⟩ := ih (reflow_paragraph n out p)
    refine ⟨gp ++ gr, ?_, ?_, ?_⟩
    · intro g hg
      rcases List.mem_append.mp hg with hm | hm
      · exact hgp g hm
      · exact hgr g hm
    · simp [hmapp, hmapr]
    · rw [List.foldl_cons, heqr, heqp]
      simp [List.append_assoc]

/-- Claim C4: the whitespace-separated words of the lines emitted by
process_message, in emission order, partition into nonempty consecutive
groups that concatenate back, in order, exactly to the original words of the
input paragraphs — so no word is dropped, duplicated or reordered; a group
has more than one fragment only for an over-long word. Moreover the
non-whitespace characters are conserved verbatim, and reflowing
"hello world" at max_columns = 5 keeps both words in order. -/
theorem process_message_preserves_words (msgs : List (List Char)) (n : ℕ) :
    (∃ groups : List (List (List Char)),
      (∀ g ∈ groups, g ≠ [] ∧ (g.length = 1 ∨ n < g.flatten.length)) ∧
      groups.map List.flatten = (msgs.map split_whitespace).flatten ∧
      line_words (process_message msgs n) = groups.flatten) ∧
    nonWs (process_message msgs n).flatten = nonWs msgs.flatten ∧
    process_message [['h','e','l','l','o',' ','w','o','r','l','d']] 5
      = [['h','e','l','l','o'], ['w','o','r','l','d']] := by
  refine ⟨?_, process_message_chars msgs n, by rfl⟩
  obtain ⟨groups, hgs, hmap, heq⟩ := foldl_reflow_paragraph_words n msgs []
  refine ⟨groups, hgs, hmap, ?_⟩
  rw [process_message, heq]
  rfl

/-- Counterexample to claim C7 as stated: place_art applied to a zero-row
block fails — the source indexes art[0], which panics on an empty slice; the
embedding models the panic as the result none. -/
theorem place_art_empty_cex : place_art 800 600 [] 10 = none := rfl

/-- Claim C7 (amended): apart from split_word budget handling, the core
operations return defined (possibly empty) results on degenerate inputs —
reflowing an empty paragraph sequence or an empty paragraph emits no lines,
splitting the empty word returns one empty fragment — except that place_art
on a zero-row block fails on the art[0] index; on every nonempty block it
returns a defined coordinate pair. -/
theorem degenerate_inputs_defined (n f r : ℕ) (w h : ℚ) (fs : ℕ)
    (art : List (List Char)) (hart : art ≠ []) :
    process_message [] n = [] ∧
    process_message [[]] n = [] ∧
    split_word [] f r = [[]] ∧
    place_art w h [] fs = none ∧
    ∃ pt, place_art w h art fs = some pt := by
  refine ⟨rfl, rfl, rfl, rfl, ?_⟩
  obtain ⟨a0, t, rfl⟩ := List.exists_cons_of_ne_nil hart
  exact ⟨_, rfl⟩

/-- Witness for the amended C7 at concrete degenerate inputs and the
single-row block ["x"]. -/
theorem degenerate_inputs_defined_witness :
    process_message [] 3 = [] ∧
    process_message [[]] 3 = [] ∧
    split_word [] 2 2 = [[]] ∧
    place_art 640 480 [] 12 = none ∧
    ∃ pt, place_art 640 480 [['x']] 12 = some pt :=
  degenerate_inputs_defined 3 2 2 640 480 12 [['x']] (by simp)

/-- Claim C5: with last_toggle = t0, check_flash at t0 + FLASH_TIME / 2
returns false and leaves the timestamp unchanged; at t0 + 3 * FLASH_TIME / 2
it returns true and leaves it unchanged; at t0 + 5 * FLASH_TIME / 2 it
returns true and resets the timestamp to that now. In general the timestamp
is mutated exactly when the elapsed time strictly exceeds 2 * FLASH_TIME
(in which case the result is true and the timestamp becomes now), and
otherwise the result is the test elapsed > FLASH_TIME. -/
theorem check_flash_spec (t0 now lt : ℕ) :
    check_flash (t0 + FLASH_TIME / 2) t0 = (false, t0) ∧
    check_flash (t0 + 3 * FLASH_TIME / 2) t0 = (true, t0) ∧
    check_flash (t0 + 5 * FLASH_TIME / 2) t0 = (true, t0 + 5 * FLASH_TIME / 2) ∧
    check_flash now lt =
      (if 2 * FLASH_TIME < now - lt then (true, now)
       else (decide (FLASH_TIME < now - lt), lt)) ∧
    ((check_flash now lt).2 ≠ lt ↔ 2 * FLASH_TIME < now - lt) := by
  refine ⟨?_, ?_, ?_, ?_, ?_⟩
  · have h1 : t0 + FLASH_TIME / 2 - t0 = FLASH_TIME / 2 := by omega
    simp only [check_flash, h1]
    norm_num [FLASH_TIME]
  · have h1 : t0 + 3 * FLASH_TIME / 2 - t0 = 3 * FLASH_TIME / 2 := by omega
    simp only [check_flash, h1]
    norm_num [FLASH_TIME]
  · have h1 : t0 + 5 * FLASH_TIME / 2 - t0 = 5 * FLASH_TIME / 2 := by omega
    simp only [check_flash, h1]
    norm_num [FLASH_TIME]
  · simp only [check_flash]
    rw [Nat.mul_comm FLASH_TIME 2]
  · simp only [check_flash]
    rw [Nat.mul_comm FLASH_TIME 2]
    split
    · rename_i hgt
      dsimp only
      constructor
      · intro _; exact hgt
      · intro _; omega
    · rename_i hle
      dsimp only
      constructor
      · intro hne; exact absurd rfl hne
      · intro hgt; exact absurd hgt hle

/-- Claim C8: brighter_than is precisely the strict comparison of perceived
brightness, where brightness is sqrt(r·r·0.241 + g·g·0.691 + b·b·0.068)
scaled by alpha; when two colors have equal brightness neither is brighter
than the other — in particular a color is never brighter than itself. -/
theorem brighter_than_spec (a b : Color) :
    (brighter_than a b ↔
      Real.sqrt (b.r * b.r * 0.241 + b.g * b.g * 0.691 + b.b * b.b * 0.068) * b.a
        < Real.sqrt (a.r * a.r * 0.241 + a.g * a.g * 0.691 + a.b * a.b * 0.068) * a.a) ∧
    (brightness a = brightness b → ¬ brighter_than a b ∧ ¬ brighter_than b a) := by
  constructor
  · exact Iff.rfl
  · intro h
    constructor
    · simp only [brighter_than, h]
      exact lt_irrefl _
    · simp only [brighter_than, h]
      exact lt_irrefl _

/-- Witness for C8: EMERALD compared with itself is not brighter in either
direction. -/
theorem brighter_than_spec_witness :
    ¬ brighter_than EMERALD EMERALD ∧ ¬ brighter_than EMERALD EMERALD :=
  (brighter_than_spec EMERALD EMERALD).2 rfl

/-- Claim C9: for every nonempty block, font size and viewport, doubling the
viewport width increases the x coordinate returned by place_art by exactly
half of the width increase while leaving y unchanged, and the x coordinate
depends on the block only through its first row's character count. -/
theorem place_art_centering (w h : ℚ) (art : List (List Char)) (fs : ℕ)
    (hart : art ≠ []) :
    ∃ x y x2 y2, place_art w h art fs = some (x, y) ∧
      place_art (2 * w) h art fs = some (x2, y2) ∧
      x2 - x = w / 2 ∧ y2 = y ∧
      ∀ art2, art2 ≠ [] → art2.headI.length = art.headI.length →
        ∃ y3, place_art w h art2 fs = some (x, y3) := by
  obtain ⟨a0, t, rfl⟩ := List.exists_cons_of_ne_nil hart
  refine ⟨w / 2 - (((a0.length : ℚ)) / 2) * ((fs : ℚ) * 0.67),
    h / 2 - ((((a0 :: t).length : ℚ)) / 2) * ((fs : ℚ) * 0.23),
    2 * w / 2 - (((a0.length : ℚ)) / 2) * ((fs : ℚ) * 0.67),
    h / 2 - ((((a0 :: t).length : ℚ)) / 2) * ((fs : ℚ) * 0.23),
    rfl, rfl, by ring, rfl, ?_⟩
  intro art2 h2 hlen
  obtain ⟨b0, t2, rfl⟩ := List.exists_cons_of_ne_nil h2
  have hl : ((b0.length : ℚ)) = ((a0.length : ℚ)) := by
    simp only [List.headI] at hlen
    exact_mod_cast hlen
  refine ⟨h / 2 - ((((b0 :: t2).length : ℚ)) / 2) * ((fs : ℚ) * 0.23), ?_⟩
  simp only [place_art]
  rw [hl]

/-- Witness for C9 at a 400 by 300 viewport, the block ["ab", "c"] and font
size 10. -/
theorem place_art_centering_witness :
    ∃ x y x2 y2, place_art 400 300 [['a','b'],['c']] 10 = some (x, y) ∧
      place_art (2 * 400) 300 [['a','b'],['c']] 10 = some (x2, y2) ∧
      x2 - x = 400 / 2 ∧ y2 = y ∧
      ∀ art2, art2 ≠ [] →
        art2.headI.length = ([['a','b'],['c']] : List (List Char)).headI.length →
        ∃ y3, place_art 400 300 art2 10 = some (x, y3) :=
  place_art_centering 400 300 [['a','b'],['c']] 10 (by simp)

end Simpleterm
